import Mathlib

/-!
Shallow embedding of `src/soft/ariane/drivers/it-mini-era2/app/calculate_dist_from_fmcw.c`.

Floating-point values are modelled as exact rationals (`ℚ`), machine
`unsigned int` arithmetic as `Nat` with explicit `% 2^32` where overflow
matters, and the in-place sample buffer as a function `Nat → ℚ`.  The
process exit of the hardware path is modelled by an explicit outcome type.
External collaborators (the software FFT subroutine, the `ioctl` status of
the device request, the accelerator's output memory, and the build-time
radar constants from `calc_fmcw_dist.h`) are parameters of the embedding.
-/

namespace FMCW

/-- The `bits`-wide bit reversal of `i` (mathematical reference permutation):
for `j < b`, bit `j` of `bitRevN b i` equals bit `b-1-j` of `i`. -/
def bitRevN : Nat → Nat → Nat
  | 0, _ => 0
  | b+1, i => (i % 2) * 2^b + bitRevN b (i / 2)

/-- Number of binary digits of `v` (`0` for `v = 0`); this is the number of
iterations performed by the loop in `fft_rev` when started at `v`. -/
def sz (v : Nat) : Nat :=
  if h : v = 0 then 0 else sz (v / 2) + 1
decreasing_by exact Nat.div_lt_self (Nat.pos_of_ne_zero h) (by norm_num)

lemma sz_zero : sz 0 = 0 := by
  unfold sz
  rfl

lemma sz_ne (v : Nat) (h : v ≠ 0) : sz v = sz (v / 2) + 1 := by
  conv_lhs => unfold sz
  rw [dif_neg h]

lemma sz_eq_zero (v : Nat) (h : sz v = 0) : v = 0 := by
  by_contra hv
  rw [sz_ne v hv] at h
  omega

lemma lt_two_pow_sz (v : Nat) : v < 2 ^ sz v := by
  induction v using Nat.strong_induction_on with
  | _ v ih =>
    by_cases h : v = 0
    · subst h
      rw [sz_zero]
      norm_num
    · rw [sz_ne v h, pow_succ]
      have h2 := ih (v / 2) (Nat.div_lt_self (Nat.pos_of_ne_zero h) (by norm_num))
      omega

lemma sz_le (k : Nat) : ∀ v, v < 2 ^ k → sz v ≤ k := by
  induction k with
  | zero =>
    intro v hv
    have hv0 : v = 0 := by simpa using hv
    simp [hv0, sz_zero]
  | succ k ih =>
    intro v hv
    by_cases h : v = 0
    · simp [h, sz_zero]
    · rw [sz_ne v h]
      have hd : v / 2 < 2 ^ k := by
        rw [pow_succ] at hv
        omega
      exact Nat.succ_le_succ (ih (v / 2) hd)

lemma bitRevN_succ (b i : Nat) : bitRevN (b + 1) i = (i % 2) * 2 ^ b + bitRevN b (i / 2) := rfl

lemma bitRevN_zero (b : Nat) : bitRevN b 0 = 0 := by
  induction b with
  | zero => rfl
  | succ b ih => simp [bitRevN, ih]

lemma bitRevN_lt (b : Nat) : ∀ i, bitRevN b i < 2 ^ b := by
  induction b with
  | zero => intro i; simp [bitRevN]
  | succ b ih =>
    intro i
    have h1 := ih (i / 2)
    have h2 : i % 2 ≤ 1 := by omega
    have h3 : (i % 2) * 2 ^ b ≤ 2 ^ b := by
      calc (i % 2) * 2 ^ b ≤ 1 * 2 ^ b := Nat.mul_le_mul_right _ h2
        _ = 2 ^ b := one_mul _
    simp only [bitRevN]
    rw [pow_succ]
    omega

lemma bitRevN_pad (b : Nat) : ∀ k i, i < 2 ^ b → bitRevN (b + k) i = bitRevN b i * 2 ^ k := by
  induction b with
  | zero =>
    intro k i hi
    have hi0 : i = 0 := by simpa using hi
    subst hi0
    simp [bitRevN, bitRevN_zero]
  | succ b ih =>
    intro k i hi
    have hstep : b + 1 + k = (b + k) + 1 := by omega
    rw [hstep]
    simp only [bitRevN]
    have hd : i / 2 < 2 ^ b := by
      rw [pow_succ] at hi
      omega
    rw [ih k (i / 2) hd, pow_add]
    ring

lemma bitRevN_snoc (b : Nat) : ∀ c y, c ≤ 1 → y < 2 ^ b →
    bitRevN (b + 1) (c * 2 ^ b + y) = 2 * bitRevN b y + c := by
  induction b with
  | zero =>
    intro c y hc hy
    have hy0 : y = 0 := by simpa using hy
    subst hy0
    interval_cases c <;> decide
  | succ b ih =>
    intro c y hc hy
    have hp : (2:Nat) ^ (b + 1) = 2 * 2 ^ b := by rw [pow_succ]; ring
    have hc2 : c = 0 ∨ c = 1 := by omega
    have hmod : (c * 2 ^ (b+1) + y) % 2 = y % 2 := by
      rcases hc2 with h | h <;> subst h <;> rw [hp] <;> omega
    have hdiv : (c * 2 ^ (b+1) + y) / 2 = c * 2 ^ b + y / 2 := by
      rcases hc2 with h | h <;> subst h <;> rw [hp] <;> omega
    have hy2 : y / 2 < 2 ^ b := by
      rw [hp] at hy
      omega
    rw [bitRevN_succ, hmod, hdiv, ih c (y / 2) hc hy2]
    conv_rhs => rw [bitRevN_succ]
    rw [hp]
    ring

lemma bitRevN_invol (b : Nat) : ∀ i, i < 2 ^ b → bitRevN b (bitRevN b i) = i := by
  induction b with
  | zero =>
    intro i hi
    have hi0 : i = 0 := by simpa using hi
    subst hi0
    rfl
  | succ b ih =>
    intro i hi
    have hp : (2:Nat) ^ (b + 1) = 2 * 2 ^ b := by rw [pow_succ]; ring
    have hd : i / 2 < 2 ^ b := by
      rw [hp] at hi
      omega
    have hc : i % 2 ≤ 1 := by omega
    have hy : bitRevN b (i / 2) < 2 ^ b := bitRevN_lt b (i / 2)
    have hinner : bitRevN (b + 1) i = (i % 2) * 2 ^ b + bitRevN b (i / 2) := bitRevN_succ b i
    rw [hinner, bitRevN_snoc b (i % 2) (bitRevN b (i / 2)) hc hy, ih (i / 2) hd]
    omega

/-- Embedding of the loop of `fft_rev` (lines 59-63 of the C file): the
`while`-loop over `v`, shifting reversed bits into `r` (an `unsigned int`,
hence the explicit `% 2^32`) and decrementing `s`.  The `fuel` argument only
bounds the recursion; `fuel = 32` never runs out for a 32-bit `v`, since the
loop starts from `v >> 1 < 2^31` and halves `v` each iteration. -/
def revLoop : Nat → Nat → Nat → Nat → Nat × Nat
  | 0, _, r, s => (r, s)
  | fuel+1, v, r, s =>
      if v = 0 then (r, s)
      else revLoop fuel (v / 2) ((r * 2 + v % 2) % 2^32) (s - 1)

/-- Embedding of `fft_rev` (lines 54-66): reverse the 32 bits of the
`unsigned int` value `v`.  Initially `r = v` and `s = 31`; the first loop
argument is `v >> 1`, and the final `r <<= s` is the `* 2 ^ _ % 2^32`. -/
def fft_rev (v : Nat) : Nat :=
  ((revLoop 32 (v / 2) v 31).1 * 2 ^ (revLoop 32 (v / 2) v 31).2) % 2^32

lemma revLoop_v0 (fuel r s : Nat) : revLoop fuel 0 r s = (r, s) := by
  cases fuel <;> rfl

lemma revLoop_step (fuel v r s : Nat) (hv : v ≠ 0) :
    revLoop (fuel + 1) v r s = revLoop fuel (v / 2) ((r * 2 + v % 2) % 2^32) (s - 1) := by
  have h : revLoop (fuel + 1) v r s
      = if v = 0 then (r, s) else revLoop fuel (v / 2) ((r * 2 + v % 2) % 2^32) (s - 1) := rfl
  rw [h, if_neg hv]

lemma revLoop_eq : ∀ (fuel v r s : Nat), sz v ≤ fuel → r < 2^32 →
    revLoop fuel v r s = ((r * 2 ^ sz v + bitRevN (sz v) v) % 2^32, s - sz v) := by
  intro fuel
  have hpair : ∀ r s : Nat, r < 2^32 →
      ((r, s) : Nat × Nat) = ((r * 2 ^ sz 0 + bitRevN (sz 0) 0) % 2^32, s - sz 0) := by
    intro r s hr
    rw [sz_zero]
    have h1 : (r * 2 ^ 0 + bitRevN 0 0) % 2^32 = r := by
      rw [bitRevN_zero, pow_zero, mul_one, add_zero, Nat.mod_eq_of_lt hr]
    rw [h1, Nat.sub_zero]
  induction fuel with
  | zero =>
    intro v r s hf hr
    have hv : v = 0 := sz_eq_zero v (Nat.le_zero.mp hf)
    subst hv
    rw [revLoop_v0]
    exact hpair r s hr
  | succ fuel ih =>
    intro v r s hf hr
    by_cases hv : v = 0
    · subst hv
      rw [revLoop_v0]
      exact hpair r s hr
    · have hsz : sz v = sz (v / 2) + 1 := sz_ne v hv
      have hf2 : sz (v / 2) ≤ fuel := by omega
      have hr2 : (r * 2 + v % 2) % 2^32 < 2^32 := Nat.mod_lt _ (by norm_num)
      rw [revLoop_step fuel v r s hv]
      rw [ih (v / 2) _ _ hf2 hr2]
      have h2nd : s - 1 - sz (v / 2) = s - sz v := by omega
      have hmod : ((r * 2 + v % 2) % 2^32 * 2 ^ sz (v / 2) + bitRevN (sz (v / 2)) (v / 2)) % 2^32
          = ((r * 2 + v % 2) * 2 ^ sz (v / 2) + bitRevN (sz (v / 2)) (v / 2)) % 2^32 :=
        ((Nat.mod_modEq _ _).mul_right _).add_right _
      rw [hmod, h2nd]
      have h1st : (r * 2 + v % 2) * 2 ^ sz (v / 2) + bitRevN (sz (v / 2)) (v / 2)
          = r * 2 ^ sz v + bitRevN (sz v) v := by
        rw [hsz]
        simp only [bitRevN]
        rw [pow_succ]
        ring
      rw [h1st]

lemma fft_rev_eq (v : Nat) (hv : v < 2^32) : fft_rev v = bitRevN 32 v := by
  have hp32 : (2:Nat)^32 = 2 * 2^31 := by norm_num
  have hd : v / 2 < 2^31 := by omega
  have hsz31 : sz (v / 2) ≤ 31 := sz_le 31 (v / 2) hd
  unfold fft_rev
  rw [revLoop_eq 32 (v / 2) v 31 (by omega) hv]
  dsimp only
  have hmod : ((v * 2 ^ sz (v / 2) + bitRevN (sz (v / 2)) (v / 2)) % 2^32
        * 2 ^ (31 - sz (v / 2))) % 2^32
      = ((v * 2 ^ sz (v / 2) + bitRevN (sz (v / 2)) (v / 2)) * 2 ^ (31 - sz (v / 2))) % 2^32 :=
    (Nat.mod_modEq _ _).mul_right _
  rw [hmod]
  have hpad : bitRevN 31 (v / 2) = bitRevN (sz (v / 2)) (v / 2) * 2 ^ (31 - sz (v / 2)) := by
    have h31 : (31:Nat) = sz (v / 2) + (31 - sz (v / 2)) := by omega
    conv_lhs => rw [h31]
    exact bitRevN_pad (sz (v / 2)) (31 - sz (v / 2)) (v / 2) (lt_two_pow_sz (v / 2))
  have hkk : (2:Nat) ^ sz (v / 2) * 2 ^ (31 - sz (v / 2)) = 2^31 := by
    have he : sz (v / 2) + (31 - sz (v / 2)) = 31 := by omega
    rw [← pow_add, he]
  have hexp : (v * 2 ^ sz (v / 2) + bitRevN (sz (v / 2)) (v / 2)) * 2 ^ (31 - sz (v / 2))
      = ((v % 2) * 2^31 + bitRevN 31 (v / 2)) + (v / 2) * 2^32 := by
    rw [hpad]
    have hv2 : v = 2 * (v / 2) + v % 2 := by omega
    calc (v * 2 ^ sz (v / 2) + bitRevN (sz (v / 2)) (v / 2)) * 2 ^ (31 - sz (v / 2))
        = v * (2 ^ sz (v / 2) * 2 ^ (31 - sz (v / 2)))
            + bitRevN (sz (v / 2)) (v / 2) * 2 ^ (31 - sz (v / 2)) := by ring
      _ = v * 2^31 + bitRevN (sz (v / 2)) (v / 2) * 2 ^ (31 - sz (v / 2)) := by rw [hkk]
      _ = ((v % 2) * 2^31 + bitRevN (sz (v / 2)) (v / 2) * 2 ^ (31 - sz (v / 2)))
            + (v / 2) * 2^32 := by
          generalize bitRevN (sz (v / 2)) (v / 2) * 2 ^ (31 - sz (v / 2)) = B
          conv_lhs => rw [hv2]
          rw [hp32]
          ring
  rw [hexp, Nat.add_mul_mod_self_right]
  have hB31 : bitRevN 31 (v / 2) < 2^31 := bitRevN_lt 31 (v / 2)
  have hDlt : (v % 2) * 2^31 + bitRevN 31 (v / 2) < 2^32 := by
    have h2 : v % 2 ≤ 1 := by omega
    have h3 : (v % 2) * 2^31 ≤ 2^31 := by
      calc (v % 2) * 2^31 ≤ 1 * 2^31 := Nat.mul_le_mul_right _ h2
        _ = 2^31 := one_mul _
    omega
  rw [Nat.mod_eq_of_lt hDlt]
  rfl

/-- The index map actually used by `fft_bit_reverse`: `fft_rev i >> shift`
with `shift = 32 - bits` equals the `bits`-wide bit reversal of `i`. -/
lemma fft_rev_shift (bits i : Nat) (hb : bits ≤ 32) (hi : i < 2 ^ bits) :
    fft_rev i >>> (32 - bits) = bitRevN bits i := by
  have hi32 : i < 2^32 := lt_of_lt_of_le hi (Nat.pow_le_pow_right (by norm_num) hb)
  rw [Nat.shiftRight_eq_div_pow, fft_rev_eq i hi32]
  have h32 : bitRevN 32 i = bitRevN bits i * 2 ^ (32 - bits) := by
    have he : (32:Nat) = bits + (32 - bits) := by omega
    conv_lhs => rw [he]
    exact bitRevN_pad bits (32 - bits) i hi
  rw [h32]
  exact Nat.mul_div_cancel _ (Nat.two_pow_pos _)

/-- Embedding of the swap in the body of `fft_bit_reverse` (lines 83-88):
the four sequential in-place assignments through the temporaries
`t_real`, `t_imag`, exchanging the complex pairs at indices `i` and `r`. -/
def fft_swap (w : Nat → ℚ) (i r : Nat) : Nat → ℚ :=
  let t_real := w (2 * i)
  let t_imag := w (2 * i + 1)
  let w1 := Function.update w (2 * i) (w (2 * r))
  let w2 := Function.update w1 (2 * i + 1) (w1 (2 * r + 1))
  let w3 := Function.update w2 (2 * r) t_real
  Function.update w3 (2 * r + 1) t_imag

/-- One iteration of the loop of `fft_bit_reverse` (lines 75-90): compute
`r = fft_rev i >> (32 - bits)` and swap the complex pairs at `i` and `r`
when `i < r`. -/
def brStep (bits : Nat) (w : Nat → ℚ) (i : Nat) : Nat → ℚ :=
  let r := fft_rev i >>> (32 - bits)
  if i < r then fft_swap w i r else w

/-- Embedding of `fft_bit_reverse` (lines 68-91): iterate `brStep` over
`i = 0, ..., n-1` on the interleaved complex buffer `w`.  The C computation
`s = 31; shift = s - bits + 1` is the `32 - bits`. -/
def fft_bit_reverse (w : Nat → ℚ) (n bits : Nat) : Nat → ℚ :=
  (List.range n).foldl (brStep bits) w

lemma fft_swap_eval (w : Nat → ℚ) (i r : Nat) (h : i < r) :
    fft_swap w i r (2 * i) = w (2 * r) ∧ fft_swap w i r (2 * i + 1) = w (2 * r + 1)
    ∧ fft_swap w i r (2 * r) = w (2 * i) ∧ fft_swap w i r (2 * r + 1) = w (2 * i + 1) := by
  have h1 : 2 * i ≠ 2 * r + 1 := by omega
  have h2 : 2 * i ≠ 2 * r := by omega
  have h3 : 2 * i ≠ 2 * i + 1 := by omega
  have h4 : 2 * i + 1 ≠ 2 * r + 1 := by omega
  have h5 : 2 * i + 1 ≠ 2 * r := by omega
  have h6 : 2 * r ≠ 2 * r + 1 := by omega
  have h7 : 2 * r + 1 ≠ 2 * i := by omega
  refine ⟨?_, ?_, ?_, ?_⟩ <;>
    simp only [fft_swap, Function.update_apply, if_neg h1, if_neg h2, if_neg h3, if_neg h4,
      if_neg h5, if_neg h6, if_neg h7, if_pos rfl, if_true]

lemma fft_swap_ne (w : Nat → ℚ) (i r x : Nat) (h1 : x ≠ 2 * i) (h2 : x ≠ 2 * i + 1)
    (h3 : x ≠ 2 * r) (h4 : x ≠ 2 * r + 1) : fft_swap w i r x = w x := by
  simp only [fft_swap, Function.update_apply, if_neg h1, if_neg h2, if_neg h3, if_neg h4]

lemma fft_bit_reverse_def (w : Nat → ℚ) (n bits : Nat) :
    fft_bit_reverse w n bits = (List.range n).foldl (brStep bits) w := rfl

lemma brStep_eq (bits : Nat) (hb : bits ≤ 32) (i : Nat) (hi : i < 2 ^ bits) (w : Nat → ℚ) :
    brStep bits w i = if i < bitRevN bits i then fft_swap w i (bitRevN bits i) else w := by
  show (if i < fft_rev i >>> (32 - bits) then fft_swap w i (fft_rev i >>> (32 - bits)) else w)
      = _
  rw [fft_rev_shift bits i hb hi]

/-- After the first `k` iterations of the loop of `fft_bit_reverse` on a
buffer of `2^bits` complex pairs, pair `j` holds the original pair
`bitRevN bits j` exactly when `min j (bitRevN bits j) < k` (that is, when
the unordered pair has already been processed), and everything beyond the
buffer is untouched. -/
lemma brPass_eval (bits : Nat) (hb : bits ≤ 32) (w : Nat → ℚ) :
    ∀ k, k ≤ 2 ^ bits →
      (∀ j, j < 2 ^ bits → ∀ t, t < 2 →
        (List.range k).foldl (brStep bits) w (2 * j + t)
          = w (2 * (if j < k ∨ bitRevN bits j < k then bitRevN bits j else j) + t))
      ∧ (∀ x, 2 * 2 ^ bits ≤ x → (List.range k).foldl (brStep bits) w x = w x) := by
  intro k
  induction k with
  | zero =>
    intro _
    constructor
    · intro j hj t ht
      simp [Nat.not_lt_zero]
    · intro x hx
      simp
  | succ k ih =>
    intro hk1
    have hk : k ≤ 2 ^ bits := Nat.le_of_succ_le hk1
    have hkb : k < 2 ^ bits := hk1
    obtain ⟨ihA, ihB⟩ := ih hk
    have hρk : bitRevN bits k < 2 ^ bits := bitRevN_lt bits k
    have hρρ : bitRevN bits (bitRevN bits k) = k := bitRevN_invol bits k hkb
    rw [List.range_succ, List.foldl_append, List.foldl_cons, List.foldl_nil]
    rw [brStep_eq bits hb k hkb]
    have hWsame : ∀ j, j < 2 ^ bits → ¬ (j < k) → ¬ (bitRevN bits j < k) → ∀ t, t < 2 →
        (List.range k).foldl (brStep bits) w (2 * j + t) = w (2 * j + t) := by
      intro j hj hj1 hj2 t ht
      have hh := ihA j hj t ht
      rw [if_neg (fun hor => hor.elim hj1 hj2)] at hh
      exact hh
    by_cases hcase : k < bitRevN bits k
    · rw [if_pos hcase]
      have hWk : ∀ t, t < 2 →
          (List.range k).foldl (brStep bits) w (2 * k + t) = w (2 * k + t) :=
        hWsame k hkb (by omega) (by omega)
      have hWρk : ∀ t, t < 2 →
          (List.range k).foldl (brStep bits) w (2 * bitRevN bits k + t)
            = w (2 * bitRevN bits k + t) := by
        intro t ht
        have h2 : ¬ (bitRevN bits (bitRevN bits k) < k) := by rw [hρρ]; omega
        exact hWsame (bitRevN bits k) hρk (by omega) h2 t ht
      have he := fft_swap_eval ((List.range k).foldl (brStep bits) w) k (bitRevN bits k) hcase
      constructor
      · intro j hj t ht
        have ht2 : t = 0 ∨ t = 1 := by omega
        by_cases hjk : j = k
        · subst hjk
          rw [if_pos (Or.inl (Nat.lt_succ_self j))]
          rcases ht2 with h | h <;> subst h
          · exact he.1.trans (hWρk 0 (by omega))
          · exact he.2.1.trans (hWρk 1 (by omega))
        · by_cases hjρ : j = bitRevN bits k
          · subst hjρ
            have hcond : (bitRevN bits k < k + 1 ∨ bitRevN bits (bitRevN bits k) < k + 1) :=
              Or.inr (by rw [hρρ]; omega)
            rw [if_pos hcond, hρρ]
            rcases ht2 with h | h <;> subst h
            · exact he.2.2.1.trans (hWk 0 (by omega))
            · exact he.2.2.2.trans (hWk 1 (by omega))
          · have hρjk : bitRevN bits j ≠ k := by
              intro hh
              apply hjρ
              rw [← hh, bitRevN_invol bits j hj]
            have hne1 : 2 * j + t ≠ 2 * k := by omega
            have hne2 : 2 * j + t ≠ 2 * k + 1 := by omega
            have hne3 : 2 * j + t ≠ 2 * bitRevN bits k := by omega
            have hne4 : 2 * j + t ≠ 2 * bitRevN bits k + 1 := by omega
            rw [fft_swap_ne _ k (bitRevN bits k) _ hne1 hne2 hne3 hne4]
            rw [ihA j hj t ht]
            have hcond : (if j < k ∨ bitRevN bits j < k then bitRevN bits j else j)
                = (if j < k + 1 ∨ bitRevN bits j < k + 1 then bitRevN bits j else j) := by
              split_ifs <;> omega
            rw [hcond]
      · intro x hx
        have hne1 : x ≠ 2 * k := by omega
        have hne2 : x ≠ 2 * k + 1 := by omega
        have hne3 : x ≠ 2 * bitRevN bits k := by omega
        have hne4 : x ≠ 2 * bitRevN bits k + 1 := by omega
        rw [fft_swap_ne _ k (bitRevN bits k) _ hne1 hne2 hne3 hne4]
        exact ihB x hx
    · rw [if_neg hcase]
      constructor
      · intro j hj t ht
        rw [ihA j hj t ht]
        have hcond : (if j < k ∨ bitRevN bits j < k then bitRevN bits j else j)
            = (if j < k + 1 ∨ bitRevN bits j < k + 1 then bitRevN bits j else j) := by
          by_cases hjk : j = k
          · subst hjk
            split_ifs <;> omega
          · by_cases hρj : bitRevN bits j = k
            · have hjρk : j = bitRevN bits k := by
                rw [← hρj, bitRevN_invol bits j hj]
              split_ifs <;> omega
            · split_ifs <;> omega
        rw [hcond]
      · exact ihB

/-- Claim C6: for every buffer of `N = 2^bits` interleaved complex samples,
after `fft_bit_reverse w (2^bits) bits` the complex pair at each index `j`
equals the original pair at the `bits`-wide bit-reversal of `j`, and nothing
outside the `2 * 2^bits` buffer slots is modified. -/
theorem fft_bit_reverse_permutes (w : Nat → ℚ) (bits : Nat) (hb : bits ≤ 32) :
    (∀ j, j < 2 ^ bits →
      fft_bit_reverse w (2 ^ bits) bits (2 * j) = w (2 * bitRevN bits j)
      ∧ fft_bit_reverse w (2 ^ bits) bits (2 * j + 1) = w (2 * bitRevN bits j + 1))
    ∧ (∀ x, 2 * 2 ^ bits ≤ x → fft_bit_reverse w (2 ^ bits) bits x = w x) := by
  obtain ⟨hA, hB⟩ := brPass_eval bits hb w (2 ^ bits) (le_refl _)
  rw [fft_bit_reverse_def]
  constructor
  · intro j hj
    constructor
    · have hh := hA j hj 0 (by omega)
      rw [if_pos (Or.inl hj)] at hh
      exact hh
    · have hh := hA j hj 1 (by omega)
      rw [if_pos (Or.inl hj)] at hh
      exact hh
  · exact hB

/-- Witness for C6 at a concrete buffer (`w x = x`) with `bits = 2`:
the pair at index `1` ends up holding the pair originally at
`bitRevN 2 1 = 2`. -/
def wEx : Nat → ℚ := fun x => (x : ℚ)

theorem fft_bit_reverse_permutes_witness :
    2 ≤ 32 ∧ fft_bit_reverse wEx (2 ^ 2) 2 (2 * 1) = wEx (2 * bitRevN 2 1) :=
  ⟨by decide, ((fft_bit_reverse_permutes wEx 2 (by decide)).1 1 (by decide)).1⟩

/-- Claim C5: the bit-reversal permutation is an involution — applying
`fft_bit_reverse` twice to a buffer of `N = 2^bits` interleaved complex
samples restores the buffer exactly. -/
theorem fft_bit_reverse_involutive (w : Nat → ℚ) (n bits : Nat) (hn : n = 2 ^ bits)
    (hb : bits ≤ 32) :
    fft_bit_reverse (fft_bit_reverse w n bits) n bits = w := by
  subst hn
  obtain ⟨hA1, hB1⟩ := brPass_eval bits hb w (2 ^ bits) (le_refl _)
  obtain ⟨hA2, hB2⟩ :=
    brPass_eval bits hb (fft_bit_reverse w (2 ^ bits) bits) (2 ^ bits) (le_refl _)
  rw [fft_bit_reverse_def (fft_bit_reverse w (2 ^ bits) bits)]
  funext x
  by_cases hx : x < 2 * 2 ^ bits
  · have hj : x / 2 < 2 ^ bits := by omega
    have ht : x % 2 < 2 := by omega
    have hxeq : x = 2 * (x / 2) + x % 2 := by omega
    have hρlt : bitRevN bits (x / 2) < 2 ^ bits := bitRevN_lt bits (x / 2)
    have h2 := hA2 (x / 2) hj (x % 2) ht
    rw [if_pos (Or.inl hj)] at h2
    have h1 := hA1 (bitRevN bits (x / 2)) hρlt (x % 2) ht
    rw [if_pos (Or.inl hρlt), bitRevN_invol bits (x / 2) hj] at h1
    rw [← fft_bit_reverse_def w] at h1
    conv_lhs => rw [hxeq]
    rw [h2, h1, ← hxeq]
  · push_neg at hx
    have h2 := hB2 x hx
    have h1 := hB1 x hx
    rw [← fft_bit_reverse_def w] at h1
    rw [h2, h1]

theorem fft_bit_reverse_involutive_witness :
    (4 = 2 ^ 2 ∧ 2 ≤ 32)
    ∧ fft_bit_reverse (fft_bit_reverse wEx 4 2) 4 2 = wEx :=
  ⟨⟨by decide, by decide⟩, fft_bit_reverse_involutive wEx 4 2 (by decide) (by decide)⟩

/-- The process-wide radar parameters `RADAR_N`, `RADAR_LOGN`, `RADAR_fs`,
`RADAR_c`, `RADAR_alpha`: build-time constants defined in
`calc_fmcw_dist.h` (outside this fragment), treated as parameters of the
embedding. -/
structure RadarParams where
  RADAR_N : Nat
  RADAR_LOGN : Nat
  RADAR_fs : ℚ
  RADAR_c : ℚ
  RADAR_alpha : ℚ

/-- State of the peak-scan loop (lines 169-179): the sample buffer together
with the running maximum power density `max_psd` and its bin index
`max_index`. -/
structure ScanState where
  data : Nat → ℚ
  max_psd : ℚ
  max_index : Nat

/-- The scaled power density of bin `i` (line 174):
`(pow(data[2*i], 2) + pow(data[2*i+1], 2)) / 100.0`. -/
def psd (data : Nat → ℚ) (i : Nat) : ℚ :=
  ((data (2 * i))^2 + (data (2 * i + 1))^2) / 100

/-- One iteration of the peak-scan loop (lines 173-178): replace the running
maximum only on strictly greater power. -/
def scanStep (s : ScanState) (i : Nat) : ScanState :=
  let temp := ((s.data (2 * i))^2 + (s.data (2 * i + 1))^2) / 100
  if temp > s.max_psd then { s with max_psd := temp, max_index := i } else s

/-- The peak-scan loop (lines 169-179), started from
`max_psd = 0, max_index = 0`. -/
def scanLoop (data : Nat → ℚ) (n : Nat) : ScanState :=
  (List.range n).foldl scanStep { data := data, max_psd := 0, max_index := 0 }

/-- The detection threshold (line 187): `1e-10 * pow(8192, 2)`. -/
def threshold : ℚ := 1 / 10^10 * 8192^2

/-- The distance mapped from the winning bin (line 180):
`(max_index * RADAR_fs / RADAR_N) * 0.5 * RADAR_c / RADAR_alpha`. -/
def distance (p : RadarParams) (max_index : Nat) : ℚ :=
  ((max_index : ℚ) * (p.RADAR_fs / (p.RADAR_N : ℚ))) * (1/2) * p.RADAR_c / p.RADAR_alpha

/-- The peak-locate / threshold / distance-map stage of
`calculate_peak_dist_from_fmcw` (lines 169-191), applied to the buffer left
by the spectral transform; the returned `INFINITY` sentinel
("no target detected", line 190) is modelled as `none`. -/
def peak_threshold_stage (p : RadarParams) (data : Nat → ℚ) : Option ℚ :=
  if (scanLoop data p.RADAR_N).max_psd > threshold
  then some (distance p (scanLoop data p.RADAR_N).max_index)
  else none

/-- Embedding of the software path of `calculate_peak_dist_from_fmcw`
(lines 107-192 with `HW_FFT` undefined): the generic FFT subroutine called
as `fft(data, RADAR_N, RADAR_LOGN, -1)` (from `fft-1d.h`, an external
black-box collaborator) is a parameter, and the scan stage runs on the
transformed buffer. -/
def calculate_peak_dist_from_fmcw (p : RadarParams)
    (fft : (Nat → ℚ) → Nat → Nat → Int → Nat → ℚ) (data : Nat → ℚ) : Option ℚ :=
  peak_threshold_stage p (fft data p.RADAR_N p.RADAR_LOGN (-1))

lemma scanLoop_succ (data : Nat → ℚ) (n : Nat) :
    scanLoop data (n + 1) = scanStep (scanLoop data n) n := by
  unfold scanLoop
  rw [List.range_succ, List.foldl_append, List.foldl_cons, List.foldl_nil]

lemma scanStep_eq (s : ScanState) (i : Nat) :
    scanStep s i = if psd s.data i > s.max_psd
      then { s with max_psd := psd s.data i, max_index := i } else s := rfl

lemma scanStep_data (s : ScanState) (i : Nat) : (scanStep s i).data = s.data := by
  rw [scanStep_eq]
  split_ifs <;> rfl

lemma scanLoop_data (data : Nat → ℚ) (n : Nat) : (scanLoop data n).data = data := by
  induction n with
  | zero => rfl
  | succ n ih => rw [scanLoop_succ, scanStep_data, ih]

lemma psd_nonneg (data : Nat → ℚ) (i : Nat) : 0 ≤ psd data i := by
  unfold psd
  positivity

/-- Loop invariant of the peak scan: the running maximum is nonnegative,
dominates every scanned bin, is attained at `max_index` (unless it is still
the initial `0` with index `0`), and every bin before `max_index` has
strictly smaller power. -/
lemma scan_inv (data : Nat → ℚ) (n : Nat) :
    0 ≤ (scanLoop data n).max_psd
    ∧ (∀ i, i < n → psd data i ≤ (scanLoop data n).max_psd)
    ∧ ((scanLoop data n).max_psd = 0 ∧ (scanLoop data n).max_index = 0
        ∨ (scanLoop data n).max_index < n
          ∧ psd data (scanLoop data n).max_index = (scanLoop data n).max_psd)
    ∧ (∀ j, j < (scanLoop data n).max_index → psd data j < (scanLoop data n).max_psd) := by
  induction n with
  | zero =>
    refine ⟨le_refl 0, ?_, Or.inl ⟨rfl, rfl⟩, ?_⟩
    · intro i hi
      exact absurd hi (Nat.not_lt_zero i)
    · intro j hj
      exact absurd hj (Nat.not_lt_zero j)
  | succ n ih =>
    obtain ⟨ih0, ihA, ihC, ihD⟩ := ih
    have hdata : (scanLoop data n).data = data := scanLoop_data data n
    rw [scanLoop_succ, scanStep_eq, hdata]
    by_cases hc : psd data n > (scanLoop data n).max_psd
    · rw [if_pos hc]
      refine ⟨?_, ?_, ?_, ?_⟩
      · exact le_trans ih0 (le_of_lt hc)
      · intro i hi
        rcases Nat.lt_succ_iff_lt_or_eq.mp hi with h | h
        · exact le_of_lt (lt_of_le_of_lt (ihA i h) hc)
        · subst h
          exact le_refl _
      · exact Or.inr ⟨Nat.lt_succ_self n, rfl⟩
      · intro j hj
        exact lt_of_le_of_lt (ihA j hj) hc
    · rw [if_neg hc]
      push_neg at hc
      refine ⟨ih0, ?_, ?_, ihD⟩
      · intro i hi
        rcases Nat.lt_succ_iff_lt_or_eq.mp hi with h | h
        · exact ihA i h
        · subst h
          exact hc
      · rcases ihC with h | h
        · exact Or.inl h
        · exact Or.inr ⟨Nat.lt_succ_of_lt h.1, h.2⟩

/-- Claim C10: the peak-location, threshold and distance-mapping stage only
reads the sample buffer — the buffer held in the scan state after the whole
scan is exactly the buffer produced by the spectral-transform stage, for
every input and every length. -/
theorem peak_scan_preserves_buffer (data : Nat → ℚ) (n : Nat) :
    (scanLoop data n).data = data :=
  scanLoop_data data n

/-- Claim C3: the peak scan computes for each bin `i` the power
`(data[2i]^2 + data[2i+1]^2) / 100`, the reported maximum dominates every
bin and is attained at the reported index, and any bin of equal maximal
power has index at least `max_index` — the strictly-greater comparison makes
the first occurrence win. -/
theorem peak_scan_first_max (data : Nat → ℚ) (n : Nat) (hn : 0 < n) :
    (∀ i, i < n → psd data i ≤ (scanLoop data n).max_psd)
    ∧ (scanLoop data n).max_index < n
    ∧ psd data (scanLoop data n).max_index = (scanLoop data n).max_psd
    ∧ (∀ j, j < n → psd data j = (scanLoop data n).max_psd
        → (scanLoop data n).max_index ≤ j) := by
  obtain ⟨h0, hA, hC, hD⟩ := scan_inv data n
  have hattain : (scanLoop data n).max_index < n
      ∧ psd data (scanLoop data n).max_index = (scanLoop data n).max_psd := by
    rcases hC with h | h
    · constructor
      · rw [h.2]
        exact hn
      · rw [h.1, h.2]
        have h1 := hA 0 hn
        rw [h.1] at h1
        exact le_antisymm h1 (psd_nonneg data 0)
    · exact h
  refine ⟨hA, hattain.1, hattain.2, ?_⟩
  intro j hj hje
  by_contra hlt
  push_neg at hlt
  exact absurd hje (ne_of_lt (hD j hlt))

/-- Tie buffer for the C3 witness: bins 0 and 1 both have power
`(10^2 + 10^2)/100 = 2`; the scan reports the earlier index. -/
def dTie : Nat → ℚ := fun j => if j < 4 then 10 else 0

theorem peak_scan_first_max_witness :
    0 < 2 ∧ psd dTie 1 = (scanLoop dTie 2).max_psd ∧ (scanLoop dTie 2).max_index ≤ 1 := by
  have hpsd : psd dTie 1 = (scanLoop dTie 2).max_psd := by
    norm_num [psd, dTie, scanLoop, scanStep, List.range_succ, List.range_zero]
  exact ⟨by decide, hpsd,
    (peak_scan_first_max dTie 2 (by decide)).2.2.2 1 (by decide) hpsd⟩

/-- Claim C1: whenever the maximum scaled power density found by the scan on
the transformed buffer strictly exceeds `1e-10 * 8192^2`, the function
returns `max_index * (RADAR_fs / RADAR_N) * 0.5 * RADAR_c / RADAR_alpha`
computed from the winning bin index and the radar parameters. -/
theorem calculate_dist_above_threshold (p : RadarParams)
    (fft : (Nat → ℚ) → Nat → Nat → Int → Nat → ℚ) (data : Nat → ℚ)
    (h : (scanLoop (fft data p.RADAR_N p.RADAR_LOGN (-1)) p.RADAR_N).max_psd > threshold) :
    calculate_peak_dist_from_fmcw p fft data
      = some ((((scanLoop (fft data p.RADAR_N p.RADAR_LOGN (-1)) p.RADAR_N).max_index : ℚ)
          * (p.RADAR_fs / (p.RADAR_N : ℚ))) * (1/2) * p.RADAR_c / p.RADAR_alpha) := by
  unfold calculate_peak_dist_from_fmcw peak_threshold_stage
  rw [if_pos h]
  rfl

/-- The external FFT collaborator instantiated as the identity transform,
and concrete buffers, for the witnesses. -/
def fftId : (Nat → ℚ) → Nat → Nat → Int → Nat → ℚ := fun d _ _ _ => d

def pEx : RadarParams := ⟨1, 0, 1, 1, 1⟩

def dBig : Nat → ℚ := fun _ => 100

theorem calculate_dist_above_threshold_witness :
    (scanLoop (fftId dBig pEx.RADAR_N pEx.RADAR_LOGN (-1)) pEx.RADAR_N).max_psd > threshold
    ∧ calculate_peak_dist_from_fmcw pEx fftId dBig
      = some ((((scanLoop (fftId dBig pEx.RADAR_N pEx.RADAR_LOGN (-1))
            pEx.RADAR_N).max_index : ℚ)
          * (pEx.RADAR_fs / (pEx.RADAR_N : ℚ))) * (1/2) * pEx.RADAR_c / pEx.RADAR_alpha) := by
  have hh : (scanLoop (fftId dBig pEx.RADAR_N pEx.RADAR_LOGN (-1))
      pEx.RADAR_N).max_psd > threshold := by
    norm_num [scanLoop, scanStep, fftId, dBig, pEx, threshold,
      List.range_succ, List.range_zero]
  exact ⟨hh, calculate_dist_above_threshold pEx fftId dBig hh⟩

/-- Claim C2: the detection threshold is strict — a transformed buffer whose
maximum power density equals `1e-10 * 8192^2` exactly yields the
no-detection sentinel, while any strictly larger maximum yields a distance
value, never the sentinel. -/
theorem detection_threshold_strict (p : RadarParams)
    (fft : (Nat → ℚ) → Nat → Nat → Int → Nat → ℚ) (data : Nat → ℚ) :
    ((scanLoop (fft data p.RADAR_N p.RADAR_LOGN (-1)) p.RADAR_N).max_psd = threshold
      → calculate_peak_dist_from_fmcw p fft data = none)
    ∧ (threshold < (scanLoop (fft data p.RADAR_N p.RADAR_LOGN (-1)) p.RADAR_N).max_psd
      → ∃ d, calculate_peak_dist_from_fmcw p fft data = some d) := by
  unfold calculate_peak_dist_from_fmcw peak_threshold_stage
  constructor
  · intro h
    have hnot : ¬ ((scanLoop (fft data p.RADAR_N p.RADAR_LOGN (-1))
        p.RADAR_N).max_psd > threshold) := by
      rw [h]
      exact lt_irrefl threshold
    rw [if_neg hnot]
  · intro h
    rw [if_pos h]
    exact ⟨_, rfl⟩

/-- Buffer whose single bin sits exactly at the detection threshold:
`((8192/10000)^2 + 0^2)/100 = 1e-10 * 8192^2`. -/
def dEdge : Nat → ℚ := fun j => if j = 0 then 8192/10000 else 0

theorem detection_threshold_strict_witness :
    calculate_peak_dist_from_fmcw pEx fftId dEdge = none
    ∧ ∃ d, calculate_peak_dist_from_fmcw pEx fftId dBig = some d := by
  constructor
  · apply (detection_threshold_strict pEx fftId dEdge).1
    norm_num [scanLoop, scanStep, fftId, dEdge, pEx, threshold,
      List.range_succ, List.range_zero]
  · apply (detection_threshold_strict pEx fftId dBig).2
    norm_num [scanLoop, scanStep, fftId, dBig, pEx, threshold,
      List.range_succ, List.range_zero]

/-- Claim C4: if every one of the `2N` values entering the peak scan is
zero, the maximum power density is `0`, below the threshold, and the
no-detection sentinel is returned. -/
theorem zero_buffer_no_detection (p : RadarParams)
    (fft : (Nat → ℚ) → Nat → Nat → Int → Nat → ℚ) (data : Nat → ℚ)
    (h : ∀ j, j < 2 * p.RADAR_N → fft data p.RADAR_N p.RADAR_LOGN (-1) j = 0) :
    calculate_peak_dist_from_fmcw p fft data = none := by
  have hz : ∀ m, m ≤ p.RADAR_N →
      scanLoop (fft data p.RADAR_N p.RADAR_LOGN (-1)) m
        = ⟨fft data p.RADAR_N p.RADAR_LOGN (-1), 0, 0⟩ := by
    intro m
    induction m with
    | zero =>
      intro _
      rfl
    | succ m ih =>
      intro hm
      rw [scanLoop_succ, ih (Nat.le_of_succ_le hm), scanStep_eq]
      have hpsd : psd (fft data p.RADAR_N p.RADAR_LOGN (-1)) m = 0 := by
        unfold psd
        rw [h (2 * m) (by omega), h (2 * m + 1) (by omega)]
        norm_num
      dsimp only
      rw [hpsd, if_neg (lt_irrefl (0:ℚ))]
  unfold calculate_peak_dist_from_fmcw peak_threshold_stage
  rw [hz p.RADAR_N (le_refl _)]
  have hth : ¬ ((0:ℚ) > threshold) := by norm_num [threshold]
  dsimp only
  rw [if_neg hth]

def dZero : Nat → ℚ := fun _ => 0

theorem zero_buffer_no_detection_witness :
    (∀ j, j < 2 * pEx.RADAR_N → fftId dZero pEx.RADAR_N pEx.RADAR_LOGN (-1) j = 0)
    ∧ calculate_peak_dist_from_fmcw pEx fftId dZero = none :=
  ⟨fun _ _ => rfl, zero_buffer_no_detection pEx fftId dZero (fun _ _ => rfl)⟩

/-- Claim C7: for fixed positive radar parameters the computed distance is
strictly increasing in the winning bin index. -/
theorem distance_mono (p : RadarParams) (hfs : 0 < p.RADAR_fs) (hN : 0 < p.RADAR_N)
    (hc : 0 < p.RADAR_c) (ha : 0 < p.RADAR_alpha) (i j : Nat) (hij : i < j)
    (hj : j < p.RADAR_N) : distance p i < distance p j := by
  unfold distance
  have hN2 : (0:ℚ) < (p.RADAR_N : ℚ) := by exact_mod_cast hN
  have hkey : (0:ℚ) < p.RADAR_fs / (p.RADAR_N : ℚ) * (1/2) * p.RADAR_c / p.RADAR_alpha := by
    positivity
  have hcast : (i:ℚ) < (j:ℚ) := by exact_mod_cast hij
  calc ((i:ℚ) * (p.RADAR_fs / (p.RADAR_N:ℚ))) * (1/2) * p.RADAR_c / p.RADAR_alpha
      = (i:ℚ) * (p.RADAR_fs / (p.RADAR_N:ℚ) * (1/2) * p.RADAR_c / p.RADAR_alpha) := by ring
    _ < (j:ℚ) * (p.RADAR_fs / (p.RADAR_N:ℚ) * (1/2) * p.RADAR_c / p.RADAR_alpha) :=
        mul_lt_mul_of_pos_right hcast hkey
    _ = ((j:ℚ) * (p.RADAR_fs / (p.RADAR_N:ℚ))) * (1/2) * p.RADAR_c / p.RADAR_alpha := by ring

def pPos : RadarParams := ⟨8, 3, 1000, 300000000, 2⟩

theorem distance_mono_witness :
    (0:ℚ) < pPos.RADAR_fs ∧ 0 < pPos.RADAR_N ∧ distance pPos 0 < distance pPos 1 :=
  ⟨by norm_num [pPos], by norm_num [pPos],
    distance_mono pPos (by norm_num [pPos]) (by norm_num [pPos]) (by norm_num [pPos])
      (by norm_num [pPos]) 0 1 (by norm_num) (by norm_num [pPos])⟩

/-- Outcome of a computation that may terminate the whole process via
`exit`: either a value or a process exit with the given code. -/
inductive HWRun (α : Type) where
  | ok : α → HWRun α
  | exited : Nat → HWRun α

/-- `EXIT_FAILURE` of `<stdlib.h>`. -/
def EXIT_FAILURE : Nat := 1

/-- Embedding of `fft_in_hw` (lines 94-104): the return status of the
blocking `ioctl(fd, FFTHW_IOC_ACCESS, desc)` device request (an external
collaborator) is the parameter `ioctl_status`; on any nonzero status the
function reports the failure (`perror`) and calls `exit(EXIT_FAILURE)`,
modelled as the `exited` outcome. -/
def fft_in_hw (ioctl_status : Int) : HWRun Unit :=
  if ioctl_status ≠ 0 then HWRun.exited EXIT_FAILURE else HWRun.ok ()

/-- Modelled from the spec: `double_to_fixed64` lives in `fixed_point.h`,
which is not part of this fragment.  Per section 4.1 it encodes a real into
a 64-bit signed fixed-point word with `b` fractional bits, relying on
fixed-width integer arithmetic (wraparound) on overflow. -/
def double_to_fixed64 (x : ℚ) (b : Nat) : Int :=
  (⌊x * 2^b⌋ + 2^63) % 2^64 - 2^63

/-- Modelled from the spec: `fixed64_to_double` from `fixed_point.h`
(not part of this fragment) decodes a 64-bit fixed-point word with `b`
fractional bits back to a real. -/
def fixed64_to_double (w : Int) (b : Nat) : ℚ := (w : ℚ) / 2^b

/-- Embedding of the hardware path of `calculate_peak_dist_from_fmcw`
(lines 113-149 and 169-191, `HW_FFT` defined): bit-reverse in place, encode
every sample into the hardware memory `fftHW_lmem` with 42 fractional bits,
issue the blocking device request, and — only if it succeeds — decode the
accelerator's output (`hw_out`, an external parameter: the contents of
`fftHW_lmem` after the transform) back into the buffer and run the peak
scan.  A failed request exits the process before any of that. -/
def calculate_peak_dist_from_fmcw_hw (p : RadarParams)
    (fftHW_len fftHW_log_len : Nat) (ioctl_status : Int) (hw_out : Nat → Int)
    (data : Nat → ℚ) : HWRun (Option ℚ) :=
  let d1 := fft_bit_reverse data fftHW_len fftHW_log_len
  let _lmem := fun j => double_to_fixed64 (d1 j) 42
  match fft_in_hw ioctl_status with
  | HWRun.exited c => HWRun.exited c
  | HWRun.ok _ =>
      let d2 := fun j => if j < 2 * fftHW_len then fixed64_to_double (hw_out j) 42 else d1 j
      HWRun.ok (peak_threshold_stage p d2)

/-- Claim C8: on the hardware path, any non-success status of the blocking
device request makes the core report the failure and terminate the process
with `EXIT_FAILURE`; it never goes on to the decode, peak scan or distance
mapping. -/
theorem hw_request_failure_fatal (p : RadarParams) (fftHW_len fftHW_log_len : Nat)
    (ioctl_status : Int) (hw_out : Nat → Int) (data : Nat → ℚ)
    (h : ioctl_status ≠ 0) :
    calculate_peak_dist_from_fmcw_hw p fftHW_len fftHW_log_len ioctl_status hw_out data
      = HWRun.exited EXIT_FAILURE := by
  unfold calculate_peak_dist_from_fmcw_hw fft_in_hw
  rw [if_pos h]

theorem hw_request_failure_fatal_witness :
    (1:Int) ≠ 0
    ∧ calculate_peak_dist_from_fmcw_hw pEx 1 0 1 (fun _ => 0) dZero
      = HWRun.exited EXIT_FAILURE :=
  ⟨by decide,
    hw_request_failure_fatal pEx 1 0 1 (fun _ => 0) dZero (by decide)⟩

/-- Claim C9 (spec-modelled codec): the fixed-point round trip loses at most
one quantization step — for every representable `x` (one whose scaled value
fits the 64-bit word) and fractional-bit count `b ≤ 63`,
`|decode(encode(x, b), b) - x| ≤ 2^-b`. -/
theorem fixed_point_roundtrip (x : ℚ) (b : Nat) (hb : b ≤ 63)
    (hlo : -(2^(63 - b) : ℚ) ≤ x) (hhi : x < (2^(63 - b) : ℚ)) :
    |fixed64_to_double (double_to_fixed64 x b) b - x| ≤ 1 / 2^b := by
  have hpow : (0:ℚ) < 2^b := by positivity
  have hsplit : (2:ℚ)^(63 - b) * 2^b = 2^63 := by
    rw [← pow_add]
    congr 1
    omega
  have hfloor_lo : (-(2^63) : Int) ≤ ⌊x * 2^b⌋ := by
    rw [Int.le_floor]
    push_cast
    calc (-(2:ℚ)^63) = -(2^(63 - b)) * 2^b := by rw [neg_mul, hsplit]
      _ ≤ x * 2^b := by
          apply mul_le_mul_of_nonneg_right hlo (le_of_lt hpow)
  have hfloor_hi : ⌊x * 2^b⌋ < (2^63 : Int) := by
    rw [Int.floor_lt]
    push_cast
    calc x * 2^b < 2^(63 - b) * 2^b := by
          apply mul_lt_mul_of_pos_right hhi hpow
      _ = 2^63 := hsplit
  have hwrap : double_to_fixed64 x b = ⌊x * 2^b⌋ := by
    unfold double_to_fixed64
    have hnn : (0:Int) ≤ ⌊x * 2^b⌋ + 2^63 := by omega
    have hlt : ⌊x * 2^b⌋ + 2^63 < 2^64 := by omega
    rw [Int.emod_eq_of_lt hnn hlt]
    omega
  rw [hwrap]
  unfold fixed64_to_double
  have hv1 : ((⌊x * 2^b⌋ : Int) : ℚ) ≤ x * 2^b := Int.floor_le _
  have hv2 : x * 2^b < ((⌊x * 2^b⌋ : Int) : ℚ) + 1 := Int.lt_floor_add_one _
  rw [abs_le]
  constructor
  · have h2 : x < (((⌊x * 2^b⌋ : Int) : ℚ) + 1) / 2^b := by
      rw [lt_div_iff₀ hpow]
      exact hv2
    have h3 : (((⌊x * 2^b⌋ : Int) : ℚ) + 1) / 2^b
        = ((⌊x * 2^b⌋ : Int) : ℚ) / 2^b + 1 / 2^b := by ring
    linarith
  · have h1 : ((⌊x * 2^b⌋ : Int) : ℚ) / 2^b ≤ x := by
      rw [div_le_iff₀ hpow]
      exact hv1
    have h4 : (0:ℚ) < 1 / 2^b := by positivity
    linarith

theorem fixed_point_roundtrip_witness :
    (2 ≤ 63 ∧ -((2:ℚ)^(63 - 2)) ≤ 1/3 ∧ (1:ℚ)/3 < 2^(63 - 2))
    ∧ |fixed64_to_double (double_to_fixed64 (1/3) 2) 2 - 1/3| ≤ 1 / 2^2 :=
  ⟨⟨by norm_num, by norm_num, by norm_num⟩,
    fixed_point_roundtrip (1/3) 2 (by norm_num) (by norm_num) (by norm_num)⟩

end FMCW
